import Mathlib

/-!
Verification of the province-generation pipeline in
`Template-Data/utils/generate_provinces_from_basemap.py`.

The label grid and the masks are modelled as functions on integer pixel
coordinates `(y, x)`; labels are integers, `0` meaning unassigned.  All
definitions below are shallow embeddings of the corresponding Python
functions (the numba-compiled hot path, which is the primary path of the
source).  Floating-point centroid sums are modelled with exact natural
arithmetic: the sums involved are far below 2^53, where IEEE double
arithmetic is exact, and truncating division of non-negative values agrees
with natural-number division.
-/

/-- A label grid: `g y x` is the province id of pixel `(y, x)`. -/
abbrev Grid := Int → Int → Int

/-- A boolean pixel mask. -/
abbrev Mask := Int → Int → Bool

/-- `lo ≤ v ≤ hi`, the in-range test used by every boundary pass. -/
def inRangeB (lo hi v : Int) : Bool := decide (lo ≤ v) && decide (v ≤ hi)

/-- Pixel `(y, x)` is inside an `h × w` raster. -/
def inB (h w : Nat) (y x : Int) : Bool :=
  decide (0 ≤ y) && decide (y < (h : Int)) && decide (0 ≤ x) && decide (x < (w : Int))

/-- Clamp `v` into `[lo, hi]`; models numpy edge padding. -/
def clampI (lo hi v : Int) : Int := max lo (min hi v)

/-- The full 3×3 window offsets in the row-major scan order used by
`smooth_boundaries_numba` (`dy` outer, `dx` inner, centre included). -/
def offsets9 : List (Int × Int) :=
  [(-1,-1),(-1,0),(-1,1),(0,-1),(0,0),(0,1),(1,-1),(1,0),(1,1)]

/-- The 8-neighbour offsets in the scan order of `add_noise_numba`
(centre skipped). -/
def offsets8 : List (Int × Int) :=
  [(-1,-1),(-1,0),(-1,1),(0,-1),(0,1),(1,-1),(1,0),(1,1)]

/-- The neighbour directions in the order listed in `find_boundary_pixels`. -/
def fbDirs : List (Int × Int) :=
  [(-1,0),(1,0),(0,-1),(0,1),(-1,-1),(-1,1),(1,-1),(1,1)]

/-! ## Colour encoding (`generate_unique_rgb_ocean`)

The ocean colour formula is pure integer arithmetic and is embedded
verbatim.  (The land formula mixes a floating-point hue computation with
bit packing; it is not needed for the claims settled here.) -/

/-- Shallow embedding of `generate_unique_rgb_ocean` (lines 111–128 of the
source).  The first value assigned to `b` is dead in the source (it is
overwritten two lines later) and is reproduced here as a dead binding. -/
def generate_unique_rgb_ocean (pid : Nat) : Nat × Nat × Nat :=
  if pid = 0 then (0, 0, 0)
  else
    let r := (pid * 17) % 80
    let g := (pid * 31) % 120
    let b0 := 150 + (pid * 7) % 106
    let r2 := (r &&& 0xC0) ||| (pid &&& 0x3F)
    let g2 := (g &&& 0x80) ||| ((pid >>> 6) &&& 0x7F)
    let b2 := 150 + ((pid >>> 13) &&& 0x6F)
    let _ := b0
    (max 0 (min 100 r2), max 0 (min 150 g2), max 150 (min 255 b2))

/-! ## Seeding of the ocean sampler (`generate_provinces`, line 591)

`ocean_seed = seed + 1000 if seed else None` uses Python truthiness, so
both `None` and `0` select the unseeded branch. -/

/-- Shallow embedding of the `ocean_seed` computation. -/
def oceanSeedArg : Option Int → Option Int
  | none => none
  | some s => if s = 0 then none else some (s + 1000)

/-- Shallow embedding of the seeding decision in `generate_seed_points`:
a present seed value selects a deterministic stream, an absent one draws
from the ambient (process-global, nondeterministic) generator state. -/
def seedPointsDraw (seedArg : Option Int) (seededDraw : Int → List (Int × Int))
    (ambientDraw : List (Int × Int)) : List (Int × Int) :=
  match seedArg with
  | some s => seededDraw s
  | none => ambientDraw

/-- C1.  The colour encoding is claimed injective over the realized id
set, and indeed the code's own docstring promises "unique RGB"; but the
`min(100, r)` clamp applied after the bit packing destroys the packed low
bits.  Ocean ids 37 and 42 — both realizable in one run (any run with at
most 36 land provinces and at least 42 ocean provinces) — receive the
same colour `(100, 0, 150)`.  Neither is mapped to the reserved colour of
id 0. -/
theorem c1_ocean_color_collision :
    generate_unique_rgb_ocean 37 = generate_unique_rgb_ocean 42 ∧
    (37 : Nat) ≠ 42 ∧
    generate_unique_rgb_ocean 37 ≠ generate_unique_rgb_ocean 0 := by
  decide

/-- C4.  With the explicit seed value `0` the ocean sampler is left
unseeded: `oceanSeedArg (some 0) = none`, so the ocean seed sampling
draws from the ambient generator state and two runs with identical inputs
can produce different seed sets (exhibited by two ambient states below),
while any non-zero seed is propagated deterministically. -/
theorem c4_seed_zero_unseeded :
    oceanSeedArg (some 0) = none ∧
    seedPointsDraw (oceanSeedArg (some 0)) (fun _ => []) [(0, 0)] ≠
      seedPointsDraw (oceanSeedArg (some 0)) (fun _ => []) [(1, 1)] ∧
    oceanSeedArg (some 7) = some 1007 ∧
    seedPointsDraw (oceanSeedArg (some 7)) (fun _ => [(2, 2)]) [(0, 0)] =
      seedPointsDraw (oceanSeedArg (some 7)) (fun _ => [(2, 2)]) [(1, 1)] := by
  refine ⟨rfl, ?_, rfl, rfl⟩
  decide

/-! ## Boundary smoothing (`smooth_boundaries_numba`) -/

/-- The labels of the full 3×3 window around `(y, x)` in row-major scan
order, restricted to the id range: the exact sequence of labels counted
by the mode filter of `smooth_boundaries_numba`. -/
def nbhdInRange (g : Grid) (lo hi y x : Int) : List Int :=
  (offsets9.map (fun d => g (y + d.1) (x + d.2))).filter (inRangeB lo hi)

/-- The boundary test inside `smooth_boundaries_numba`: some window label
differs from the centre and is in range (the centre offset is harmless,
exactly as in the source loop). -/
def isBoundarySm (g : Grid) (lo hi y x : Int) : Bool :=
  offsets9.any (fun d =>
    decide (g (y + d.1) (x + d.2) ≠ g y x) && inRangeB lo hi (g (y + d.1) (x + d.2)))

/-- One step of the unique-label counting loop of `smooth_boundaries_numba`:
find the label and bump its count, else append it (the source caps the
table at 9 entries; the cap never binds for a 3×3 window). -/
def addCount (acc : List (Int × Nat)) (n : Int) : List (Int × Nat) :=
  if acc.any (fun p => p.1 == n) then
    acc.map (fun p => if p.1 == n then (p.1, p.2 + 1) else p)
  else if acc.length < 9 then acc ++ [(n, 1)] else acc

/-- The unique (label, count) table built by `smooth_boundaries_numba`,
in first-occurrence order. -/
def uniqueCounts (l : List Int) : List (Int × Nat) := l.foldl addCount []

/-- One step of the mode-selection loop: keep the incumbent unless the
next count is strictly larger. -/
def firstMaxStep (st p : Int × Nat) : Int × Nat := if p.2 > st.2 then p else st

/-- The mode selection of `smooth_boundaries_numba`: `max_count = 0`,
`max_id = current`, then take each entry whose count strictly exceeds the
running maximum. -/
def firstMax (uc : List (Int × Nat)) (cur : Int) : Int :=
  (uc.foldl firstMaxStep (cur, 0)).1

/-- Interior test of the smoothing loops: `y ∈ [1, h-2]`, `x ∈ [1, w-2]`
(the source iterates `range(1, height-1)` × `range(1, width-1)`). -/
def interiorB (h w : Nat) (y x : Int) : Bool :=
  decide (1 ≤ y) && decide (y ≤ (h : Int) - 2) && decide (1 ≤ x) && decide (x ≤ (w : Int) - 2)

/-- Shallow embedding of one pass of `smooth_boundaries_numba`: interior
in-mask pixels whose label is in `[lo, hi]` and that are boundary pixels
get the first-maximum label of their 3×3 window; everything else is
copied. -/
def smooth_boundaries_numba (g : Grid) (m : Mask) (h w : Nat) (lo hi : Int) : Grid := fun y x =>
  if interiorB h w y x && m y x && inRangeB lo hi (g y x) then
    if isBoundarySm g lo hi y x then
      let uc := uniqueCounts (nbhdInRange g lo hi y x)
      if 0 < uc.length then firstMax uc (g y x) else g y x
    else g y x
  else g y x

/-- Shallow embedding of `smooth_provinces`: iterate the pass, each pass
consuming the previous pass's output. -/
def smooth_provinces (g : Grid) (m : Mask) (h w : Nat) (lo hi : Int) : Nat → Grid
  | 0 => g
  | k + 1 => smooth_boundaries_numba (smooth_provinces g m h w lo hi k) m h w lo hi

/-! ## Reference mode: distinct labels in first-occurrence order -/

/-- Append `n` if unseen; the accumulator step of `occList`. -/
def occUpd (acc : List Int) (n : Int) : List Int := if n ∈ acc then acc else acc ++ [n]

/-- The distinct values of `l` in order of first occurrence. -/
def occList (l : List Int) : List Int := l.foldl occUpd []

/-- `v` attains the maximal multiplicity among the entries of `l`. -/
def isMaxCount (l : List Int) (v : Int) : Bool :=
  l.all (fun u => decide (l.count u ≤ l.count v))

/-- Reference description of one smoothing pass (the amended claim):
each interior in-mask in-range boundary pixel receives, among the
in-range labels of its 3×3 window, the label of maximal multiplicity
whose first occurrence in the row-major scan is earliest; all other
pixels are copied. -/
def smoothSpec (g : Grid) (m : Mask) (h w : Nat) (lo hi : Int) : Grid := fun y x =>
  if interiorB h w y x && m y x && inRangeB lo hi (g y x) then
    if isBoundarySm g lo hi y x then
      let L := nbhdInRange g lo hi y x
      ((occList L).find? (isMaxCount L)).getD (g y x)
    else g y x
  else g y x

/-- Tie-break rule stated by the claim: keep the current label when it is
among the most frequent, otherwise take the numerically smallest of the
most frequent labels. -/
def claimSmoothLabel (L : List Int) (cur : Int) : Int :=
  let tied := (occList L).filter (isMaxCount L)
  if cur ∈ tied then cur else tied.foldl min (tied.headD cur)

/-! ## Characterisation of the fold-based mode computation -/

lemma occ_foldl_mem : ∀ (l acc : List Int) (v : Int),
    v ∈ l.foldl occUpd acc ↔ v ∈ acc ∨ v ∈ l
  | [], acc, v => by simp
  | n :: t, acc, v => by
      rw [List.foldl_cons, occ_foldl_mem t]
      unfold occUpd
      by_cases hn : n ∈ acc
      · simp only [if_pos hn, List.mem_cons]
        constructor
        · rintro (h | h)
          · exact Or.inl h
          · exact Or.inr (Or.inr h)
        · rintro (h | rfl | h)
          · exact Or.inl h
          · exact Or.inl hn
          · exact Or.inr h
      · simp only [if_neg hn, List.mem_append, List.mem_singleton, List.mem_cons]
        tauto

lemma occList_mem (l : List Int) (v : Int) : v ∈ occList l ↔ v ∈ l := by
  unfold occList
  rw [occ_foldl_mem]
  simp

lemma occList_ne_nil (l : List Int) (h : l ≠ []) : occList l ≠ [] := by
  obtain ⟨a, ha⟩ := List.exists_mem_of_ne_nil l h
  intro hc
  have := (occList_mem l a).2 ha
  rw [hc] at this
  exact absurd this (List.not_mem_nil a)

lemma any_fst_beq : ∀ (accO : List Int) (cnt : Int → Nat) (n : Int),
    ((accO.map (fun v => (v, cnt v))).any (fun p => p.1 == n)) = decide (n ∈ accO)
  | [], _, _ => by simp
  | a :: t, cnt, n => by
      rw [List.map_cons, List.any_cons, any_fst_beq t cnt n]
      show ((a == n) || decide (n ∈ t)) = decide (n ∈ a :: t)
      by_cases h : a = n
      · subst h
        simp
      · have h1 : (a == n) = false := by
          rw [beq_eq_false_iff_ne]
          exact h
        have h2 : (n ∈ a :: t) ↔ n ∈ t := by
          rw [List.mem_cons]
          constructor
          · rintro (h3 | h3)
            · exact absurd h3.symm h
            · exact h3
          · exact Or.inr
        simp [h1, h2]

lemma foldl_addCount_eq : ∀ (l accO : List Int) (cnt : Int → Nat),
    accO.length + l.length ≤ 9 → (∀ v, v ∉ accO → cnt v = 0) →
    l.foldl addCount (accO.map (fun v => (v, cnt v))) =
      (l.foldl occUpd accO).map (fun v => (v, cnt v + l.count v))
  | [], accO, cnt, _, _ => by simp
  | n :: t, accO, cnt, hcap, h0 => by
      by_cases hn : n ∈ accO
      · have hstep : addCount (accO.map (fun v => (v, cnt v))) n =
            accO.map (fun v => (v, cnt v + if v = n then 1 else 0)) := by
          unfold addCount
          rw [any_fst_beq, decide_eq_true hn, if_pos rfl, List.map_map]
          refine List.map_congr_left ?_
          intro a _
          by_cases ha : a = n <;> simp [ha]
        rw [List.foldl_cons, hstep]
        have hupd : (n :: t).foldl occUpd accO = t.foldl occUpd accO := by
          rw [List.foldl_cons]
          unfold occUpd
          rw [if_pos hn]
        rw [hupd]
        have h0' : ∀ v, v ∉ accO → (fun v => cnt v + if v = n then 1 else 0) v = 0 := by
          intro v hv
          have hvn : v ≠ n := fun hc => hv (hc ▸ hn)
          simp [hvn, h0 v hv]
        have hrec := foldl_addCount_eq t accO (fun v => cnt v + if v = n then 1 else 0)
          (by simp only [List.length_cons, List.length_append, List.length_singleton, List.length_nil] at hcap ⊢; omega) h0'
        rw [hrec]
        refine List.map_congr_left ?_
        intro a _
        simp only [Prod.mk.injEq, true_and]
        by_cases ha : a = n
        · subst ha
          simp only [List.count_cons_self, if_pos (rfl : a = a), if_true]
          omega
        · have hba : ¬((n == a) = true) := by
            rw [beq_iff_eq]
            exact Ne.symm ha
          simp only [if_neg ha, List.count_cons, if_neg hba]
          omega
      · have hlen : (accO.map (fun v => (v, cnt v))).length < 9 := by
          simp at hcap ⊢
          omega
        have hstep : addCount (accO.map (fun v => (v, cnt v))) n =
            (accO ++ [n]).map (fun v => (v, if v = n then 1 else cnt v)) := by
          unfold addCount
          rw [any_fst_beq, decide_eq_false hn, if_neg (by simp), if_pos hlen, List.map_append]
          congr 1
          · refine List.map_congr_left ?_
            intro a ha
            have hvn : a ≠ n := fun hc => hn (hc ▸ ha)
            simp [hvn]
          · simp
        rw [List.foldl_cons, hstep]
        have hupd : (n :: t).foldl occUpd accO = t.foldl occUpd (accO ++ [n]) := by
          rw [List.foldl_cons]
          unfold occUpd
          rw [if_neg hn]
        rw [hupd]
        have h0' : ∀ v, v ∉ accO ++ [n] → (fun v => if v = n then 1 else cnt v) v = 0 := by
          intro v hv
          simp only [List.mem_append, List.mem_singleton] at hv
          push_neg at hv
          simp [hv.2, h0 v hv.1]
        have hrec := foldl_addCount_eq t (accO ++ [n]) (fun v => if v = n then 1 else cnt v)
          (by simp only [List.length_cons, List.length_append, List.length_singleton, List.length_nil] at hcap ⊢; omega) h0'
        rw [hrec]
        refine List.map_congr_left ?_
        intro a _
        simp only [Prod.mk.injEq, true_and]
        by_cases ha : a = n
        · subst ha
          simp only [List.count_cons_self, if_pos (rfl : a = a), if_true, h0 a hn]
          omega
        · have hba : ¬((n == a) = true) := by
            rw [beq_iff_eq]
            exact Ne.symm ha
          simp only [if_neg ha, List.count_cons, if_neg hba]
          omega

lemma uniqueCounts_eq (l : List Int) (h9 : l.length ≤ 9) :
    uniqueCounts l = (occList l).map (fun v => (v, l.count v)) := by
  have := foldl_addCount_eq l [] (fun _ => 0) (by simpa) (fun _ _ => rfl)
  simpa [uniqueCounts, occList] using this

lemma find?_split {α : Type} (p : α → Bool) : ∀ (l : List α) (a : α), l.find? p = some a →
    ∃ A B, l = A ++ a :: B ∧ (∀ x ∈ A, p x = false) ∧ p a = true
  | [], a, h => by simp at h
  | c :: t, a, h => by
      by_cases hc : p c = true
      · rw [List.find?_cons_of_pos _ hc] at h
        injection h with h
        subst h
        exact ⟨[], t, rfl, by simp, hc⟩
      · rw [List.find?_cons_of_neg _ (by simpa using hc)] at h
        obtain ⟨A, B, hl, hA, hp⟩ := find?_split p t a h
        refine ⟨c :: A, B, by rw [hl, List.cons_append], ?_, hp⟩
        intro x hx
        rcases List.mem_cons.1 hx with rfl | hx
        · simpa using hc
        · exact hA x hx

lemma find?_isSome_of_mem {α : Type} (p : α → Bool) :
    ∀ (l : List α) (a : α), a ∈ l → p a = true → ∃ b, l.find? p = some b
  | [], a, ha, _ => absurd ha (List.not_mem_nil a)
  | c :: t, a, ha, hp => by
      by_cases hc : p c = true
      · exact ⟨c, List.find?_cons_of_pos _ hc⟩
      · rcases List.mem_cons.1 ha with rfl | ha
        · exact absurd hp hc
        · obtain ⟨b, hb⟩ := find?_isSome_of_mem p t a ha hp
          exact ⟨b, by rw [List.find?_cons_of_neg _ (by simpa using hc)]; exact hb⟩

lemma exists_count_max : ∀ (l : List Int), l ≠ [] → ∃ v ∈ l, ∀ u ∈ l, l.count u ≤ l.count v := by
  suffices h : ∀ (f : Int → Nat) (l : List Int), l ≠ [] → ∃ v ∈ l, ∀ u ∈ l, f u ≤ f v by
    intro l hl
    exact h (fun u => l.count u) l hl
  intro f l
  induction l with
  | nil => intro h; exact absurd rfl h
  | cons a t ih =>
      intro _
      by_cases ht : t = []
      · subst ht
        exact ⟨a, List.mem_cons_self a [], by intro u hu; rcases List.mem_cons.1 hu with rfl | hu
                                              · exact le_refl _
                                              · exact absurd hu (List.not_mem_nil u)⟩
      · obtain ⟨v, hv, hmax⟩ := ih ht
        rcases le_total (f a) (f v) with hle | hle
        · refine ⟨v, List.mem_cons_of_mem a hv, ?_⟩
          intro u hu
          rcases List.mem_cons.1 hu with rfl | hu
          · exact hle
          · exact hmax u hu
        · refine ⟨a, List.mem_cons_self a t, ?_⟩
          intro u hu
          rcases List.mem_cons.1 hu with rfl | hu
          · exact le_refl _
          · exact le_trans (hmax u hu) hle

lemma exists_isMaxCount (l : List Int) (h : l ≠ []) : ∃ v ∈ l, isMaxCount l v = true := by
  obtain ⟨v, hv, hmax⟩ := exists_count_max l h
  refine ⟨v, hv, ?_⟩
  unfold isMaxCount
  rw [List.all_eq_true]
  intro u hu
  exact decide_eq_true (hmax u hu)

lemma foldl_fms_bound : ∀ (ps : List (Int × Nat)) (st : Int × Nat) (c : Nat),
    st.2 < c → (∀ p ∈ ps, p.2 < c) → (ps.foldl firstMaxStep st).2 < c
  | [], st, c, hst, _ => hst
  | p :: t, st, c, hst, hps => by
      rw [List.foldl_cons]
      refine foldl_fms_bound t _ c ?_ (fun q hq => hps q (List.mem_cons_of_mem p hq))
      unfold firstMaxStep
      by_cases hgt : p.2 > st.2
      · rw [if_pos hgt]
        exact hps p (List.mem_cons_self p t)
      · rw [if_neg hgt]
        exact hst

lemma foldl_fms_fixed : ∀ (ps : List (Int × Nat)) (st : Int × Nat),
    (∀ p ∈ ps, p.2 ≤ st.2) → ps.foldl firstMaxStep st = st
  | [], _, _ => rfl
  | p :: t, st, hps => by
      rw [List.foldl_cons]
      have hstep : firstMaxStep st p = st := by
        unfold firstMaxStep
        rw [if_neg (by exact Nat.not_lt.2 (hps p (List.mem_cons_self p t)))]
      rw [hstep]
      exact foldl_fms_fixed t st (fun q hq => hps q (List.mem_cons_of_mem p hq))

lemma foldl_fms_final (A B : List (Int × Nat)) (q : Int × Nat) :
    ∀ (st : Int × Nat), st.2 < q.2 → (∀ p ∈ A, p.2 < q.2) → (∀ p ∈ B, p.2 ≤ q.2) →
    (A ++ q :: B).foldl firstMaxStep st = q := by
  intro st hst hA hB
  rw [List.foldl_append, List.foldl_cons]
  have h1 : (A.foldl firstMaxStep st).2 < q.2 := foldl_fms_bound A st q.2 hst hA
  have h2 : firstMaxStep (A.foldl firstMaxStep st) q = q := by
    simp only [firstMaxStep, gt_iff_lt]
    rw [if_pos h1]
  rw [h2]
  exact foldl_fms_fixed B q hB

lemma firstMax_uniqueCounts (L : List Int) (cur : Int) (h9 : L.length ≤ 9) (hne : L ≠ []) :
    firstMax (uniqueCounts L) cur = ((occList L).find? (isMaxCount L)).getD cur := by
  obtain ⟨v, hvL, hv⟩ := exists_isMaxCount L hne
  have hvO : v ∈ occList L := (occList_mem L v).2 hvL
  obtain ⟨a, ha⟩ := find?_isSome_of_mem (isMaxCount L) (occList L) v hvO hv
  obtain ⟨A, B, hsplit, hA, hpa⟩ := find?_split (isMaxCount L) (occList L) a ha
  have haL : a ∈ L := by
    refine (occList_mem L a).1 ?_
    rw [hsplit]
    exact List.mem_append_right A (List.mem_cons_self a B)
  have hca : ∀ u ∈ L, L.count u ≤ L.count a := by
    intro u hu
    have := (List.all_eq_true.1 hpa) u hu
    exact of_decide_eq_true this
  have hcpos : 0 < L.count a := List.count_pos_iff.2 haL
  have hAlt : ∀ u ∈ A, L.count u < L.count a := by
    intro u hu
    have huO : u ∈ occList L := by
      rw [hsplit]
      exact List.mem_append_left _ hu
    have huL : u ∈ L := (occList_mem L u).1 huO
    rcases Nat.lt_or_ge (L.count u) (L.count a) with hlt | hge
    · exact hlt
    · exfalso
      have heq : L.count u = L.count a := Nat.le_antisymm (hca u huL) hge
      have : isMaxCount L u = true := by
        unfold isMaxCount
        rw [List.all_eq_true]
        intro z hz
        exact decide_eq_true (heq ▸ hca z hz)
      rw [hA u hu] at this
      exact Bool.false_ne_true this
  rw [uniqueCounts_eq L h9, ha, Option.getD_some, hsplit, List.map_append, List.map_cons]
  show (((A.map (fun u => (u, L.count u))) ++ (a, L.count a) ::
    (B.map (fun u => (u, L.count u)))).foldl firstMaxStep (cur, 0)).1 = a
  rw [foldl_fms_final]
  · exact hcpos
  · intro p hp
    obtain ⟨u, hu, rfl⟩ := List.mem_map.1 hp
    exact hAlt u hu
  · intro p hp
    obtain ⟨u, hu, rfl⟩ := List.mem_map.1 hp
    have huL : u ∈ L := (occList_mem L u).1
      (by rw [hsplit]; exact List.mem_append_right A (List.mem_cons_of_mem a hu))
    exact hca u huL

lemma cur_mem_nbhd (g : Grid) (lo hi y x : Int) (h : inRangeB lo hi (g y x) = true) :
    g y x ∈ nbhdInRange g lo hi y x := by
  unfold nbhdInRange
  rw [List.mem_filter]
  constructor
  · rw [List.mem_map]
    refine ⟨(0, 0), by simp [offsets9], by simp⟩
  · exact h

lemma nbhd_length_le (g : Grid) (lo hi y x : Int) : (nbhdInRange g lo hi y x).length ≤ 9 := by
  unfold nbhdInRange
  calc ((offsets9.map (fun d => g (y + d.1) (x + d.2))).filter (inRangeB lo hi)).length
      ≤ (offsets9.map (fun d => g (y + d.1) (x + d.2))).length := List.length_filter_le _ _
    _ = 9 := by simp [offsets9]

lemma nbhd_ne_nil (g : Grid) (lo hi y x : Int) (h : inRangeB lo hi (g y x) = true) :
    nbhdInRange g lo hi y x ≠ [] :=
  List.ne_nil_of_mem (cur_mem_nbhd g lo hi y x h)

lemma uniqueCounts_length_pos (l : List Int) (h9 : l.length ≤ 9) (hne : l ≠ []) :
    0 < (uniqueCounts l).length := by
  rw [uniqueCounts_eq l h9, List.length_map]
  exact List.length_pos.2 (occList_ne_nil l hne)

/-- C5 (amended).  One smoothing pass equals the reference mode filter:
every interior, in-mask, in-range boundary pixel receives the most
frequent in-range label of its full 3×3 neighbourhood, where among
equally frequent labels the one whose first occurrence in the row-major
scan of the window is earliest wins (so the current label is kept only
when it attains the maximum and occurs first); every other pixel — in
particular every pixel on the image border — is left unchanged. -/
theorem c5_smoothing_mode_first_occurrence (g : Grid) (m : Mask) (h w : Nat) (lo hi y x : Int) :
    smooth_boundaries_numba g m h w lo hi y x = smoothSpec g m h w lo hi y x := by
  unfold smooth_boundaries_numba smoothSpec
  by_cases h1 : (interiorB h w y x && m y x && inRangeB lo hi (g y x)) = true
  · rw [if_pos h1, if_pos h1]
    by_cases h2 : isBoundarySm g lo hi y x = true
    · rw [if_pos h2, if_pos h2]
      have hin : inRangeB lo hi (g y x) = true := by
        simp only [Bool.and_eq_true] at h1
        exact h1.2
      have hne := nbhd_ne_nil g lo hi y x hin
      have h9 := nbhd_length_le g lo hi y x
      rw [if_pos (uniqueCounts_length_pos _ h9 hne)]
      exact firstMax_uniqueCounts _ _ h9 hne
    · rw [if_neg h2, if_neg h2]
  · rw [if_neg h1, if_neg h1]

/-- All-true mask used by the concrete examples. -/
def maskAll : Mask := fun _ _ => true

/-- Concrete 3×3 grid refuting the claimed tie-break: at the centre the
window holds four labels 2, four labels 1 (the centre included) and one
out-of-range 0. -/
def gridTie : Grid := fun y x =>
  if y = 0 then 2
  else if y = 1 then (if x = 0 then 2 else 1)
  else if x = 2 then 0 else 1

/-- C5 counterexample.  At the centre pixel of `gridTie` (an interior,
in-mask, in-range boundary pixel) labels 1 and 2 tie with four
occurrences each and the centre currently holds 1, so the claimed rule
("prefer the current label when tied") keeps 1; the code returns 2, the
tied label scanned first. -/
theorem c5_counterexample :
    maskAll 1 1 = true ∧
    inRangeB 1 2 (gridTie 1 1) = true ∧
    isBoundarySm gridTie 1 2 1 1 = true ∧
    smooth_boundaries_numba gridTie maskAll 3 3 1 2 1 1 = 2 ∧
    claimSmoothLabel (nbhdInRange gridTie 1 2 1 1) (gridTie 1 1) = 1 ∧
    (2 : Int) ≠ 1 := by
  refine ⟨rfl, by decide, by decide, by decide, by decide, by decide⟩

/-- The centre label is the strict majority of its in-range 3×3 window:
every other in-range window label has strictly smaller multiplicity. -/
def strictMajorityAt (g : Grid) (lo hi y x : Int) : Bool :=
  (nbhdInRange g lo hi y x).all (fun v =>
    (v == g y x) ||
      decide ((nbhdInRange g lo hi y x).count v < (nbhdInRange g lo hi y x).count (g y x)))

/-- C7.  If no boundary pixel disagrees with the strict majority of its
3×3 neighbourhood — i.e. every interior in-mask in-range boundary pixel's
current label is strictly the most frequent in-range label of its window
— then one further smoothing pass leaves every pixel of the grid
unchanged. -/
theorem c7_smoothing_fixed_point (g : Grid) (m : Mask) (h w : Nat) (lo hi : Int)
    (hfix : ∀ y x : Int,
      (interiorB h w y x && m y x && inRangeB lo hi (g y x) && isBoundarySm g lo hi y x) = true →
      strictMajorityAt g lo hi y x = true) :
    ∀ y x : Int, smooth_boundaries_numba g m h w lo hi y x = g y x := by
  intro y x
  unfold smooth_boundaries_numba
  by_cases h1 : (interiorB h w y x && m y x && inRangeB lo hi (g y x)) = true
  · rw [if_pos h1]
    by_cases h2 : isBoundarySm g lo hi y x = true
    · rw [if_pos h2]
      have hin : inRangeB lo hi (g y x) = true := by
        simp only [Bool.and_eq_true] at h1
        exact h1.2
      have hmaj := hfix y x (by rw [h1, h2]; rfl)
      have hstrict : ∀ v ∈ nbhdInRange g lo hi y x, v ≠ g y x →
          (nbhdInRange g lo hi y x).count v < (nbhdInRange g lo hi y x).count (g y x) := by
        intro v hv hvne
        have := (List.all_eq_true.1 hmaj) v hv
        rcases Bool.or_eq_true_iff.1 this with hbeq | hlt
        · exact absurd (beq_iff_eq.1 hbeq) hvne
        · exact of_decide_eq_true hlt
      have hne := nbhd_ne_nil g lo hi y x hin
      have h9 := nbhd_length_le g lo hi y x
      rw [if_pos (uniqueCounts_length_pos _ h9 hne)]
      rw [firstMax_uniqueCounts _ _ h9 hne]
      have hcur : g y x ∈ nbhdInRange g lo hi y x := cur_mem_nbhd g lo hi y x hin
      have hcurmax : isMaxCount (nbhdInRange g lo hi y x) (g y x) = true := by
        unfold isMaxCount
        rw [List.all_eq_true]
        intro u hu
        refine decide_eq_true ?_
        by_cases huc : u = g y x
        · rw [huc]
        · exact Nat.le_of_lt (hstrict u hu huc)
      obtain ⟨a, ha⟩ := find?_isSome_of_mem (isMaxCount (nbhdInRange g lo hi y x))
        (occList (nbhdInRange g lo hi y x)) (g y x)
        ((occList_mem _ _).2 hcur) hcurmax
      have hpa : isMaxCount (nbhdInRange g lo hi y x) a = true := List.find?_some ha
      have haL : a ∈ nbhdInRange g lo hi y x :=
        (occList_mem _ _).1 (List.mem_of_find?_eq_some ha)
      have hacur : a = g y x := by
        by_contra hne2
        have hlt := hstrict a haL hne2
        have hle : (nbhdInRange g lo hi y x).count (g y x) ≤
            (nbhdInRange g lo hi y x).count a :=
          of_decide_eq_true ((List.all_eq_true.1 hpa) (g y x) hcur)
        omega
      rw [ha, Option.getD_some, hacur]
    · rw [if_neg h2]
  · rw [if_neg h1]

/-- Concrete fixed-point grid: two provinces split by a vertical border;
every interior boundary pixel's label is the strict majority of its
window. -/
def gridHalves : Grid := fun _ x => if x ≤ 1 then 1 else 2

theorem c7_witness : smooth_boundaries_numba gridHalves maskAll 3 4 1 2 1 1 = gridHalves 1 1 := by
  refine c7_smoothing_fixed_point gridHalves maskAll 3 4 1 2 ?_ 1 1
  intro y x hcond
  simp only [Bool.and_eq_true] at hcond
  have hint : interiorB 3 4 y x = true := hcond.1.1.1
  simp only [interiorB, Bool.and_eq_true, decide_eq_true_eq] at hint
  obtain ⟨⟨⟨hy1, hy2⟩, hx1⟩, hx2⟩ := hint
  have hy : y = 1 := by omega
  have hx : x = 1 ∨ x = 2 := by omega
  subst hy
  rcases hx with rfl | rfl
  · decide
  · decide

/-! ## Boundary perturbation (`find_boundary_pixels`, `add_noise_numba`) -/

/-- Shallow embedding of the per-pixel decision of `find_boundary_pixels`:
the pixel's label is in range, the pixel is in the mask, and in some of
the eight directions the edge-padded (coordinate-clamped) neighbour label
is in range and differs.  Matches the vectorised shift-and-or loop of the
source, with `np.pad(..., mode='edge')` modelled by index clamping. -/
def isBoundaryFB (g : Grid) (m : Mask) (h w : Nat) (lo hi y x : Int) : Bool :=
  inB h w y x && inRangeB lo hi (g y x) && m y x &&
  fbDirs.any (fun d =>
    let n := g (clampI 0 ((h : Int) - 1) (y + d.1)) (clampI 0 ((w : Int) - 1) (x + d.2))
    inRangeB lo hi n && decide (g y x ≠ n))

/-- The neighbour labels collected by `add_noise_numba` for a selected
boundary pixel: real in-bounds 8-neighbours, in range and differing from
the pixel's own pre-pass label, in scan order. -/
def noiseNeighbors (g : Grid) (h w : Nat) (lo hi y x : Int) : List Int :=
  offsets8.filterMap (fun d =>
    if inB h w (y + d.1) (x + d.2) then
      if inRangeB lo hi (g (y + d.1) (x + d.2)) && decide (g (y + d.1) (x + d.2) ≠ g y x) then
        some (g (y + d.1) (x + d.2))
      else none
    else none)

/-- Shallow embedding of one pass of `add_organic_noise` / `add_noise_numba`.
`sel` models the without-replacement draw of `floor(count · s)` boundary
pixels (`sel ≡ true` is strength `s = 1`, `sel ≡ false` is `s = 0`);
`rnd` models the pre-generated uniform values, the source computing
`int(random * n) % n` to index the neighbour list.  All reads are from
the pre-pass grid `g`, writes go to a fresh copy, as in the source. -/
def add_organic_noise (g : Grid) (m : Mask) (h w : Nat) (lo hi : Int)
    (sel : Int → Int → Bool) (rnd : Int → Int → Nat) : Grid := fun y x =>
  if sel y x && isBoundaryFB g m h w lo hi y x then
    let ns := noiseNeighbors g h w lo hi y x
    if 0 < ns.length then ns.getD (rnd y x % ns.length) 0 else g y x
  else g y x

/-- Boundary pixel in the words of the claim: an in-bounds, in-mask,
in-range pixel with at least one in-bounds, in-mask, in-range,
differently labelled 8-neighbour. -/
def claimBoundaryPixel (g : Grid) (m : Mask) (h w : Nat) (lo hi y x : Int) : Bool :=
  inB h w y x && m y x && inRangeB lo hi (g y x) &&
  offsets8.any (fun d =>
    inB h w (y + d.1) (x + d.2) && m (y + d.1) (x + d.2) &&
    inRangeB lo hi (g (y + d.1) (x + d.2)) && decide (g (y + d.1) (x + d.2) ≠ g y x))

lemma getD_mem {α : Type} : ∀ (l : List α) (i : Nat) (d : α), i < l.length → l.getD i d ∈ l
  | [], i, _, hi => by simp at hi
  | a :: t, 0, d, _ => by simp [List.getD]
  | a :: t, i + 1, d, hi => by
      have := getD_mem t i d (by simpa using hi)
      simpa [List.getD] using List.mem_cons_of_mem a (by simpa [List.getD] using this)

lemma mem_offsets8_mem_fbDirs (d : Int × Int) (hd : d ∈ offsets8) : d ∈ fbDirs := by
  simp only [offsets8, List.mem_cons, List.not_mem_nil, or_false] at hd
  rcases hd with rfl | rfl | rfl | rfl | rfl | rfl | rfl | rfl <;> decide

lemma noiseNeighbors_ne_cur (g : Grid) (h w : Nat) (lo hi y x : Int) :
    ∀ v ∈ noiseNeighbors g h w lo hi y x, v ≠ g y x := by
  intro v hv
  unfold noiseNeighbors at hv
  obtain ⟨d, _, hd⟩ := List.mem_filterMap.1 hv
  by_cases hb : inB h w (y + d.1) (x + d.2) = true
  · rw [if_pos hb] at hd
    by_cases hc : (inRangeB lo hi (g (y + d.1) (x + d.2)) &&
        decide (g (y + d.1) (x + d.2) ≠ g y x)) = true
    · rw [if_pos hc] at hd
      injection hd with hd
      subst hd
      simp only [Bool.and_eq_true, decide_eq_true_eq] at hc
      exact hc.2
    · rw [if_neg hc] at hd
      exact absurd hd (by simp)
  · rw [if_neg hb] at hd
    exact absurd hd (by simp)

lemma claim_boundary_fb (g : Grid) (m : Mask) (h w : Nat) (lo hi y x : Int)
    (hb : claimBoundaryPixel g m h w lo hi y x = true) :
    isBoundaryFB g m h w lo hi y x = true := by
  unfold claimBoundaryPixel at hb
  simp only [Bool.and_eq_true] at hb
  obtain ⟨⟨⟨hinb, hm⟩, hr⟩, hany⟩ := hb
  rw [List.any_eq_true] at hany
  obtain ⟨d, hd, hcond⟩ := hany
  simp only [Bool.and_eq_true, decide_eq_true_eq] at hcond
  obtain ⟨⟨⟨hnb, _⟩, hnr⟩, hne⟩ := hcond
  unfold isBoundaryFB
  simp only [Bool.and_eq_true]
  refine ⟨⟨⟨hinb, hr⟩, hm⟩, ?_⟩
  rw [List.any_eq_true]
  refine ⟨d, mem_offsets8_mem_fbDirs d hd, ?_⟩
  have hyc : clampI 0 ((h : Int) - 1) (y + d.1) = y + d.1 := by
    unfold inB at hnb
    simp only [Bool.and_eq_true, decide_eq_true_eq] at hnb
    unfold clampI
    omega
  have hxc : clampI 0 ((w : Int) - 1) (x + d.2) = x + d.2 := by
    unfold inB at hnb
    simp only [Bool.and_eq_true, decide_eq_true_eq] at hnb
    unfold clampI
    omega
  simp only [hyc, hxc, Bool.and_eq_true, decide_eq_true_eq]
  exact ⟨hnr, Ne.symm hne⟩

lemma claim_boundary_neighbors_ne_nil (g : Grid) (m : Mask) (h w : Nat) (lo hi y x : Int)
    (hb : claimBoundaryPixel g m h w lo hi y x = true) :
    noiseNeighbors g h w lo hi y x ≠ [] := by
  unfold claimBoundaryPixel at hb
  simp only [Bool.and_eq_true] at hb
  obtain ⟨_, hany⟩ := hb
  rw [List.any_eq_true] at hany
  obtain ⟨d, hd, hcond⟩ := hany
  simp only [Bool.and_eq_true, decide_eq_true_eq] at hcond
  obtain ⟨⟨⟨hnb, _⟩, hnr⟩, hne⟩ := hcond
  have hmem : g (y + d.1) (x + d.2) ∈ noiseNeighbors g h w lo hi y x := by
    unfold noiseNeighbors
    rw [List.mem_filterMap]
    refine ⟨d, hd, ?_⟩
    rw [if_pos hnb, if_pos (by simp only [Bool.and_eq_true, decide_eq_true_eq]; exact ⟨hnr, hne⟩)]
  exact List.ne_nil_of_mem hmem

/-- C6.  With noise strength 1 every boundary pixel is selected, and
every pixel that is a boundary pixel of the pre-pass grid in the sense of
the claim (in-mask, in-range, with an in-mask in-range differently
labelled 8-neighbour) ends the perturbation pass with a label different
from its pre-pass label, for every randomness stream `rnd`. -/
theorem c6_noise_strength_one_flips (g : Grid) (m : Mask) (h w : Nat) (lo hi : Int)
    (rnd : Int → Int → Nat) (y x : Int)
    (hb : claimBoundaryPixel g m h w lo hi y x = true) :
    add_organic_noise g m h w lo hi (fun _ _ => true) rnd y x ≠ g y x := by
  unfold add_organic_noise
  rw [Bool.true_and, if_pos (claim_boundary_fb g m h w lo hi y x hb)]
  have hne := claim_boundary_neighbors_ne_nil g m h w lo hi y x hb
  have hlen : 0 < (noiseNeighbors g h w lo hi y x).length := List.length_pos.2 hne
  rw [if_pos hlen]
  have hmem := getD_mem (noiseNeighbors g h w lo hi y x)
    (rnd y x % (noiseNeighbors g h w lo hi y x).length) 0 (Nat.mod_lt _ hlen)
  exact noiseNeighbors_ne_cur g h w lo hi y x _ hmem

/-- Concrete 1×2 grid for the C6 witness: two adjacent provinces. -/
def gridPair : Grid := fun _ x => if x ≤ 0 then 1 else 2

theorem c6_witness :
    claimBoundaryPixel gridPair maskAll 1 2 1 2 0 0 = true ∧
    add_organic_noise gridPair maskAll 1 2 1 2 (fun _ _ => true) (fun _ _ => 0) 0 0 ≠ gridPair 0 0 :=
  ⟨by decide,
   c6_noise_strength_one_flips gridPair maskAll 1 2 1 2 (fun _ _ => 0) 0 0 (by decide)⟩

/-- C10.  Both boundary passes are framed by the mask and the id range:
a pixel outside the mask, or whose pre-pass label lies outside `[lo, hi]`,
is left unchanged by a perturbation pass (for every selection and every
randomness stream) and by a smoothing pass. -/
theorem c10_passes_frame (g : Grid) (m : Mask) (h w : Nat) (lo hi : Int)
    (sel : Int → Int → Bool) (rnd : Int → Int → Nat) (y x : Int)
    (hout : m y x = false ∨ inRangeB lo hi (g y x) = false) :
    add_organic_noise g m h w lo hi sel rnd y x = g y x ∧
    smooth_boundaries_numba g m h w lo hi y x = g y x := by
  constructor
  · unfold add_organic_noise
    have hfb : isBoundaryFB g m h w lo hi y x = false := by
      unfold isBoundaryFB
      rcases hout with hm | hr
      · simp [hm]
      · simp [hr]
    rw [hfb]
    simp
  · unfold smooth_boundaries_numba
    have hc : (interiorB h w y x && m y x && inRangeB lo hi (g y x)) = false := by
      rcases hout with hm | hr
      · simp [hm]
      · simp [hr]
    rw [hc]
    simp

theorem c10_witness :
    add_organic_noise gridPair maskAll 1 2 1 1 (fun _ _ => true) (fun _ _ => 0) 0 1 = gridPair 0 1 ∧
    smooth_boundaries_numba gridPair maskAll 1 2 1 1 0 1 = gridPair 0 1 :=
  c10_passes_frame gridPair maskAll 1 2 1 1 (fun _ _ => true) (fun _ _ => 0) 0 1
    (Or.inr (by decide))


/-! ## Spatial assignment (`assign_provinces_kdtree`) -/

/-- Squared Euclidean distance between a seed `(x, y)` and a query point
`(x, y)`, as computed by the KD-tree nearest-neighbour query. -/
def sqDistSeed (s q : Int × Int) : Int :=
  (s.1 - q.1) * (s.1 - q.1) + (s.2 - q.2) * (s.2 - q.2)

/-- Scan the remaining seeds keeping the first index of minimal distance.
Exact distance ties between seeds are implementation-defined in the
KD-tree of the source; this embedding fixes the first-index rule. -/
def nearestAux (q : Int × Int) : List (Int × Int) → Nat → (Nat × Int) → (Nat × Int)
  | [], _, b => b
  | s :: rest, i, b =>
      nearestAux q rest (i + 1) (if sqDistSeed s q < b.2 then (i, sqDistSeed s q) else b)

/-- Index of the nearest seed to the query point. -/
def nearestSeedIdx (seeds : List (Int × Int)) (q : Int × Int) : Nat :=
  match seeds with
  | [] => 0
  | s :: rest => (nearestAux q rest 1 (0, sqDistSeed s q)).1

/-- Shallow embedding of `assign_provinces_kdtree`: a zero grid when the
seed list is empty, else every mask pixel gets
`start_id + index_of_nearest_seed` and every other pixel stays 0. -/
def assign_provinces_kdtree (m : Mask) (seeds : List (Int × Int)) (startId : Int) : Grid := fun y x =>
  if seeds.isEmpty then 0
  else if m y x then startId + (nearestSeedIdx seeds (x, y) : Int) else 0

lemma nearestAux_bound (q : Int × Int) : ∀ (l : List (Int × Int)) (i : Nat) (b : Nat × Int)
    (n : Nat), b.1 < n → i + l.length ≤ n → (nearestAux q l i b).1 < n
  | [], _, _, _, hb, _ => hb
  | s :: rest, i, b, n, hb, hn => by
      rw [nearestAux]
      refine nearestAux_bound q rest (i + 1) _ n ?_
        (by simp only [List.length_cons] at hn; omega)
      by_cases hlt : sqDistSeed s q < b.2
      · rw [if_pos hlt]
        show i < n
        simp only [List.length_cons] at hn
        omega
      · rw [if_neg hlt]
        exact hb

lemma nearestSeedIdx_bound (seeds : List (Int × Int)) (q : Int × Int) (hs : seeds ≠ []) :
    nearestSeedIdx seeds q < seeds.length := by
  match seeds with
  | [] => exact absurd rfl hs
  | s :: rest =>
      unfold nearestSeedIdx
      rw [List.length_cons]
      exact nearestAux_bound q rest 1 (0, sqDistSeed s q) (rest.length + 1)
        (by omega) (by omega)

lemma assignKD_range (m : Mask) (seeds : List (Int × Int)) (startId : Int) (y x : Int)
    (hm : m y x = true) (hs : seeds ≠ []) :
    startId ≤ assign_provinces_kdtree m seeds startId y x ∧
      assign_provinces_kdtree m seeds startId y x ≤ startId + (seeds.length : Int) - 1 := by
  unfold assign_provinces_kdtree
  rw [if_neg (by simpa [List.isEmpty_iff] using hs), if_pos hm]
  have := nearestSeedIdx_bound seeds (x, y) hs
  omega

lemma assignKD_zero (m : Mask) (seeds : List (Int × Int)) (startId : Int) (y x : Int)
    (hm : m y x = false) : assign_provinces_kdtree m seeds startId y x = 0 := by
  unfold assign_provinces_kdtree
  by_cases he : seeds.isEmpty
  · rw [if_pos he]
  · rw [if_neg he, if_neg (by simp [hm])]

/-! ## Lloyd relaxation (`compute_centroids_numba`, `lloyd_relaxation`) -/

/-- All pixel coordinates `(y, x)` of an `h × w` raster in row-major
order, the iteration order of the source loops and of `np.where`. -/
def coordsList (h w : Nat) : List (Int × Int) :=
  (List.range (h * w)).map (fun k => (((k / w : Nat) : Int), ((k % w : Nat) : Int)))

/-- The pixels carrying label `id`, in row-major order; their number is
the `counts` entry of `compute_centroids_numba`. -/
def provPixels (g : Grid) (h w : Nat) (id : Int) : List (Int × Int) :=
  (coordsList h w).filter (fun c => g c.1 c.2 == id)

/-- The integer centroid `(cx, cy)` of a province: coordinate sums
divided by the pixel count with truncation, as in
`compute_centroids_numba` (exact here because the float64 sums of the
source are exact far beyond raster sizes). -/
def centroidOf (g : Grid) (h w : Nat) (id : Int) : Nat × Nat :=
  let ps := provPixels g h w id
  ((ps.map (fun c => c.2.toNat)).sum / ps.length,
   (ps.map (fun c => c.1.toNat)).sum / ps.length)

/-- Squared distance of a pixel `(y, x)` to the centroid `(cx, cy)`,
as in the correction step of `lloyd_relaxation`. -/
def distTo (cx cy : Int) (c : Int × Int) : Int :=
  (c.2 - cx) * (c.2 - cx) + (c.1 - cy) * (c.1 - cy)

/-- First minimiser of the distance in scan order (`np.argmin` returns
the first index attaining the minimum). -/
def minByDist (cx cy : Int) (c0 : Int × Int) (l : List (Int × Int)) : Int × Int :=
  l.foldl (fun b c => if distTo cx cy c < distTo cx cy b then c else b) c0

/-- The correction step of `lloyd_relaxation` for pixels off the mask:
the in-mask pixel of the province nearest to the centroid, if any. -/
def nearestValidPixel (g : Grid) (m : Mask) (h w : Nat) (id : Int) (cx cy : Int) :
    Option (Int × Int) :=
  match (coordsList h w).filter (fun c => g c.1 c.2 == id && m c.1 c.2) with
  | [] => none
  | c0 :: rest => some (minByDist cx cy c0 rest)

/-- Seed update for one province, following `lloyd_relaxation` (numba
path): provinces without pixels keep their seed; a centroid on the mask
becomes the new seed; a centroid off the mask is replaced by the nearest
in-mask pixel of the province (the seed is kept when that set is empty).
The `0 ≤ cx, 0 ≤ cy` half of the source's bounds check holds by
construction here, the coordinates being natural numbers. -/
def updateOne (g : Grid) (m : Mask) (h w : Nat) (startId : Int) (i : Nat) (s : Int × Int) :
    Int × Int :=
  let id := startId + (i : Int)
  let ps := provPixels g h w id
  if 0 < ps.length then
    let c := centroidOf g h w id
    if c.2 < h ∧ c.1 < w then
      if m (c.2 : Int) (c.1 : Int) then ((c.1 : Int), (c.2 : Int))
      else
        match nearestValidPixel g m h w id (c.1 : Int) (c.2 : Int) with
        | some q => (q.2, q.1)
        | none => s
    else s
  else s

/-- The seed-update map over the indexed seed list. -/
def lloydSeedUpdateAux (g : Grid) (m : Mask) (h w : Nat) (startId : Int) :
    Nat → List (Int × Int) → List (Int × Int)
  | _, [] => []
  | i, s :: rest =>
      updateOne g m h w startId i s :: lloydSeedUpdateAux g m h w startId (i + 1) rest

/-- One centroid-correction step of `lloyd_relaxation` over all seeds. -/
def lloydSeedUpdate (g : Grid) (m : Mask) (h w : Nat) (seeds : List (Int × Int))
    (startId : Int) : List (Int × Int) :=
  lloydSeedUpdateAux g m h w startId 0 seeds

/-- The iteration structure of `lloyd_relaxation`: each iteration updates
the seeds, and all iterations except the last re-run the assignment with
the updated seeds (`k` counts the remaining iterations, so `k = 0` marks
the final one). -/
def lloyd_relaxation (m : Mask) (h w : Nat) (startId : Int) :
    Nat → (List (Int × Int) × Grid) → (List (Int × Int) × Grid)
  | 0, st => st
  | k + 1, st =>
      let seeds2 := lloydSeedUpdate st.2 m h w st.1 startId
      let g2 := if k = 0 then st.2 else assign_provinces_kdtree m seeds2 startId
      lloyd_relaxation m h w startId k (seeds2, g2)

/-- The land phase of `generate_provinces`: initial assignment with
offset 1, then — only when the relaxation iteration count is positive —
Lloyd relaxation, one organic-noise pass and three smoothing passes over
the id range `[1, len(land_seeds)]`. -/
def pipelineLandGrid (lm : Mask) (landSeeds : List (Int × Int)) (h w : Nat) (iters : Nat)
    (sel : Int → Int → Bool) (rnd : Int → Int → Nat) : Grid :=
  let g0 := assign_provinces_kdtree lm landSeeds 1
  if 0 < iters then
    let g1 := (lloyd_relaxation lm h w 1 iters (landSeeds, g0)).2
    let g2 := add_organic_noise g1 lm h w 1 (landSeeds.length : Int) sel rnd
    smooth_provinces g2 lm h w 1 (landSeeds.length : Int) 3
  else g0

/-- The composition of land and ocean phases in `generate_provinces`:
ocean provinces are assigned with offset `len(land_seeds) + 1` and
overwrite the land grid exactly where the ocean assignment is positive. -/
def finalGrid (lm om : Mask) (landSeeds oceanSeeds : List (Int × Int)) (h w iters : Nat)
    (sel : Int → Int → Bool) (rnd : Int → Int → Nat) : Grid :=
  let landG := pipelineLandGrid lm landSeeds h w iters sel rnd
  let oceanG := assign_provinces_kdtree om oceanSeeds ((landSeeds.length : Int) + 1)
  fun y x => if 0 < oceanG y x then oceanG y x else landG y x

/-! ## Range invariants of the passes -/

lemma smoothPass_not_mask (g : Grid) (m : Mask) (h w : Nat) (lo hi y x : Int)
    (hm : m y x = false) : smooth_boundaries_numba g m h w lo hi y x = g y x := by
  unfold smooth_boundaries_numba
  rw [if_neg (by simp [hm])]

lemma smoothPass_not_inRange (g : Grid) (m : Mask) (h w : Nat) (lo hi y x : Int)
    (hr : inRangeB lo hi (g y x) = false) : smooth_boundaries_numba g m h w lo hi y x = g y x := by
  unfold smooth_boundaries_numba
  rw [if_neg (by simp [hr])]

lemma addNoisePass_not_mask (g : Grid) (m : Mask) (h w : Nat) (lo hi : Int)
    (sel : Int → Int → Bool) (rnd : Int → Int → Nat) (y x : Int)
    (hm : m y x = false) : add_organic_noise g m h w lo hi sel rnd y x = g y x := by
  unfold add_organic_noise
  rw [if_neg (by unfold isBoundaryFB; simp [hm])]

lemma addNoisePass_not_inRange (g : Grid) (m : Mask) (h w : Nat) (lo hi : Int)
    (sel : Int → Int → Bool) (rnd : Int → Int → Nat) (y x : Int)
    (hr : inRangeB lo hi (g y x) = false) : add_organic_noise g m h w lo hi sel rnd y x = g y x := by
  unfold add_organic_noise
  rw [if_neg (by unfold isBoundaryFB; simp [hr])]

lemma noiseNeighbors_inRange (g : Grid) (h w : Nat) (lo hi y x : Int) :
    ∀ v ∈ noiseNeighbors g h w lo hi y x, inRangeB lo hi v = true := by
  intro v hv
  unfold noiseNeighbors at hv
  obtain ⟨d, _, hd⟩ := List.mem_filterMap.1 hv
  by_cases hb : inB h w (y + d.1) (x + d.2) = true
  · rw [if_pos hb] at hd
    by_cases hc : (inRangeB lo hi (g (y + d.1) (x + d.2)) &&
        decide (g (y + d.1) (x + d.2) ≠ g y x)) = true
    · rw [if_pos hc] at hd
      injection hd with hd
      subst hd
      simp only [Bool.and_eq_true] at hc
      exact hc.1
    · rw [if_neg hc] at hd
      exact absurd hd (by simp)
  · rw [if_neg hb] at hd
    exact absurd hd (by simp)

lemma foldl_fms_fst_mem : ∀ (ps : List (Int × Nat)) (st : Int × Nat),
    (ps.foldl firstMaxStep st).1 = st.1 ∨ (ps.foldl firstMaxStep st).1 ∈ ps.map Prod.fst
  | [], _ => Or.inl rfl
  | p :: t, st => by
      rw [List.foldl_cons]
      by_cases hgt : p.2 > st.2
      · have hstep : firstMaxStep st p = p := by
          simp only [firstMaxStep, if_pos hgt]
        rw [hstep]
        rcases foldl_fms_fst_mem t p with hcase | hcase
        · right
          rw [List.map_cons, hcase]
          exact List.mem_cons_self _ _
        · right
          rw [List.map_cons]
          exact List.mem_cons_of_mem _ hcase
      · have hstep : firstMaxStep st p = st := by
          simp only [firstMaxStep, if_neg hgt]
        rw [hstep]
        rcases foldl_fms_fst_mem t st with hcase | hcase
        · exact Or.inl hcase
        · right
          rw [List.map_cons]
          exact List.mem_cons_of_mem _ hcase

lemma uniqueCounts_keys_sub (l : List Int) (h9 : l.length ≤ 9) :
    ∀ v ∈ (uniqueCounts l).map Prod.fst, v ∈ l := by
  intro v hv
  rw [uniqueCounts_eq l h9, List.map_map] at hv
  have : v ∈ occList l := by
    simpa using hv
  exact (occList_mem l v).1 this

lemma smoothPass_inRange (g : Grid) (m : Mask) (h w : Nat) (lo hi y x : Int)
    (hr : inRangeB lo hi (g y x) = true) :
    inRangeB lo hi (smooth_boundaries_numba g m h w lo hi y x) = true := by
  unfold smooth_boundaries_numba
  by_cases h1 : (interiorB h w y x && m y x && inRangeB lo hi (g y x)) = true
  · rw [if_pos h1]
    by_cases h2 : isBoundarySm g lo hi y x = true
    · rw [if_pos h2]
      by_cases h3 : 0 < (uniqueCounts (nbhdInRange g lo hi y x)).length
      · rw [if_pos h3]
        rcases foldl_fms_fst_mem (uniqueCounts (nbhdInRange g lo hi y x)) (g y x, 0)
          with hcase | hcase
        · unfold firstMax
          rw [hcase]
          exact hr
        · unfold firstMax
          have hvN : (firstMax (uniqueCounts (nbhdInRange g lo hi y x)) (g y x)) ∈
              nbhdInRange g lo hi y x :=
            uniqueCounts_keys_sub _ (nbhd_length_le g lo hi y x) _ hcase
          exact (List.mem_filter.1 hvN).2
      · rw [if_neg h3]
        exact hr
    · rw [if_neg h2]
      exact hr
  · rw [if_neg h1]
    exact hr

lemma addNoisePass_inRange (g : Grid) (m : Mask) (h w : Nat) (lo hi : Int)
    (sel : Int → Int → Bool) (rnd : Int → Int → Nat) (y x : Int)
    (hr : inRangeB lo hi (g y x) = true) :
    inRangeB lo hi (add_organic_noise g m h w lo hi sel rnd y x) = true := by
  unfold add_organic_noise
  by_cases h1 : (sel y x && isBoundaryFB g m h w lo hi y x) = true
  · rw [if_pos h1]
    by_cases h2 : 0 < (noiseNeighbors g h w lo hi y x).length
    · rw [if_pos h2]
      exact noiseNeighbors_inRange g h w lo hi y x _
        (getD_mem _ _ 0 (Nat.mod_lt _ h2))
    · rw [if_neg h2]
      exact hr
  · rw [if_neg h1]
    exact hr

/-- The land-phase invariant: mask pixels carry a label in
`[1, n]`, all other pixels carry 0. -/
def landInvP (lm : Mask) (n : Nat) (g : Grid) : Prop :=
  ∀ y x : Int, (lm y x = true → 1 ≤ g y x ∧ g y x ≤ (n : Int)) ∧ (lm y x = false → g y x = 0)

lemma inRangeB_of_bounds (n : Nat) (v : Int) (h1 : 1 ≤ v) (h2 : v ≤ (n : Int)) :
    inRangeB 1 (n : Int) v = true := by
  unfold inRangeB
  simp [h1, h2]

lemma bounds_of_inRangeB (n : Nat) (v : Int) (h : inRangeB 1 (n : Int) v = true) :
    1 ≤ v ∧ v ≤ (n : Int) := by
  unfold inRangeB at h
  simpa using h

lemma assignKD_inv (lm : Mask) (seeds : List (Int × Int)) (hs : seeds ≠ []) :
    landInvP lm seeds.length (assign_provinces_kdtree lm seeds 1) := by
  intro y x
  constructor
  · intro hm
    have := assignKD_range lm seeds 1 y x hm hs
    omega
  · intro hm
    exact assignKD_zero lm seeds 1 y x hm

lemma smoothPass_inv (lm : Mask) (n : Nat) (g : Grid) (h w : Nat)
    (hg : landInvP lm n g) : landInvP lm n (smooth_boundaries_numba g lm h w 1 (n : Int)) := by
  intro y x
  constructor
  · intro hm
    have hcur := (hg y x).1 hm
    have := smoothPass_inRange g lm h w 1 (n : Int) y x
      (inRangeB_of_bounds n _ hcur.1 hcur.2)
    exact bounds_of_inRangeB n _ this
  · intro hm
    rw [smoothPass_not_mask g lm h w 1 (n : Int) y x hm]
    exact (hg y x).2 hm

lemma addNoisePass_inv (lm : Mask) (n : Nat) (g : Grid) (h w : Nat)
    (sel : Int → Int → Bool) (rnd : Int → Int → Nat)
    (hg : landInvP lm n g) : landInvP lm n (add_organic_noise g lm h w 1 (n : Int) sel rnd) := by
  intro y x
  constructor
  · intro hm
    have hcur := (hg y x).1 hm
    have := addNoisePass_inRange g lm h w 1 (n : Int) sel rnd y x
      (inRangeB_of_bounds n _ hcur.1 hcur.2)
    exact bounds_of_inRangeB n _ this
  · intro hm
    rw [addNoisePass_not_mask g lm h w 1 (n : Int) sel rnd y x hm]
    exact (hg y x).2 hm

lemma smoothProvinces_inv (lm : Mask) (n : Nat) (g : Grid) (h w : Nat) :
    ∀ k : Nat, landInvP lm n g → landInvP lm n (smooth_provinces g lm h w 1 (n : Int) k)
  | 0, hg => hg
  | k + 1, hg => smoothPass_inv lm n _ h w (smoothProvinces_inv lm n g h w k hg)

lemma lloydSeedUpdateAux_length (g : Grid) (m : Mask) (h w : Nat) (startId : Int) :
    ∀ (i : Nat) (l : List (Int × Int)),
      (lloydSeedUpdateAux g m h w startId i l).length = l.length
  | _, [] => rfl
  | i, s :: rest => by
      unfold lloydSeedUpdateAux
      rw [List.length_cons, List.length_cons,
        lloydSeedUpdateAux_length g m h w startId (i + 1) rest]

lemma lloydLoop_inv (lm : Mask) (h w n : Nat) :
    ∀ (k : Nat) (st : List (Int × Int) × Grid),
      st.1.length = n → st.1 ≠ [] → landInvP lm n st.2 →
      (lloyd_relaxation lm h w 1 k st).1.length = n ∧ (lloyd_relaxation lm h w 1 k st).1 ≠ [] ∧
        landInvP lm n (lloyd_relaxation lm h w 1 k st).2
  | 0, st, hlen, hne, hg => ⟨hlen, hne, hg⟩
  | k + 1, st, hlen, hne, hg => by
      unfold lloyd_relaxation
      have hlen2 : (lloydSeedUpdate st.2 lm h w st.1 1).length = n := by
        unfold lloydSeedUpdate
        rw [lloydSeedUpdateAux_length]
        exact hlen
      have hne2 : lloydSeedUpdate st.2 lm h w st.1 1 ≠ [] := by
        intro hc
        have := congrArg List.length hc
        rw [hlen2] at this
        simp at this
        subst this
        rw [List.length_eq_zero] at hlen
        exact hne hlen
      refine lloydLoop_inv lm h w n k _ hlen2 hne2 ?_
      by_cases hk : k = 0
      · rw [if_pos hk]
        exact hg
      · rw [if_neg hk]
        have := assignKD_inv lm (lloydSeedUpdate st.2 lm h w st.1 1) hne2
        rw [hlen2] at this
        exact this

lemma pipeline_inv (lm : Mask) (landSeeds : List (Int × Int)) (h w iters : Nat)
    (sel : Int → Int → Bool) (rnd : Int → Int → Nat) (hs : landSeeds ≠ []) :
    landInvP lm landSeeds.length (pipelineLandGrid lm landSeeds h w iters sel rnd) := by
  unfold pipelineLandGrid
  by_cases hit : 0 < iters
  · rw [if_pos hit]
    have h0 := assignKD_inv lm landSeeds hs
    have hloop := lloydLoop_inv lm h w landSeeds.length iters
      (landSeeds, assign_provinces_kdtree lm landSeeds 1) rfl hs h0
    have hnoise := addNoisePass_inv lm landSeeds.length _ h w sel rnd hloop.2.2
    exact smoothProvinces_inv lm landSeeds.length _ h w 3 hnoise
  · rw [if_neg hit]
    exact assignKD_inv lm landSeeds hs

/-- C2.  After the full pipeline (initial assignment, relaxation with any
iteration count, perturbation with any selection and randomness,
smoothing, ocean assignment), with disjoint land/ocean masks and at
least one seed in each category: every land-mask pixel carries a label
in `[1, landCount]`, every ocean-mask pixel a label in
`[landCount + 1, landCount + oceanCount]`, and every pixel outside both
masks the label 0. -/
theorem c2_final_label_ranges (lm om : Mask) (landSeeds oceanSeeds : List (Int × Int))
    (h w iters : Nat) (sel : Int → Int → Bool) (rnd : Int → Int → Nat)
    (hdisj : ∀ y x : Int, lm y x = true → om y x = false)
    (hls : landSeeds ≠ []) (hos : oceanSeeds ≠ []) (y x : Int) :
    (lm y x = true →
      1 ≤ finalGrid lm om landSeeds oceanSeeds h w iters sel rnd y x ∧
      finalGrid lm om landSeeds oceanSeeds h w iters sel rnd y x ≤ (landSeeds.length : Int)) ∧
    (om y x = true →
      (landSeeds.length : Int) + 1 ≤ finalGrid lm om landSeeds oceanSeeds h w iters sel rnd y x ∧
      finalGrid lm om landSeeds oceanSeeds h w iters sel rnd y x ≤
        (landSeeds.length : Int) + (oceanSeeds.length : Int)) ∧
    (lm y x = false → om y x = false →
      finalGrid lm om landSeeds oceanSeeds h w iters sel rnd y x = 0) := by
  have hland := pipeline_inv lm landSeeds h w iters sel rnd hls
  unfold finalGrid
  refine ⟨?_, ?_, ?_⟩
  · intro hm
    have hom : om y x = false := hdisj y x hm
    rw [assignKD_zero om oceanSeeds _ y x hom]
    rw [if_neg (by omega)]
    exact (hland y x).1 hm
  · intro hom
    have hrange := assignKD_range om oceanSeeds ((landSeeds.length : Int) + 1) y x hom hos
    rw [if_pos (by omega)]
    omega
  · intro hlm hom
    rw [assignKD_zero om oceanSeeds _ y x hom]
    rw [if_neg (by omega)]
    exact (hland y x).2 hlm

/-- Concrete masks for the C2 witness: a 1×2 raster with one land pixel
at `x = 0` and one ocean pixel at `x = 1`. -/
def landMaskW : Mask := fun y x => decide (y = 0 ∧ x = 0)

/-- Ocean half of the witness raster. -/
def oceanMaskW : Mask := fun y x => decide (y = 0 ∧ x = 1)

theorem c2_witness :
    (landMaskW 0 0 = true →
      1 ≤ finalGrid landMaskW oceanMaskW [(0, 0)] [(1, 0)] 1 2 1 (fun _ _ => true)
        (fun _ _ => 0) 0 0 ∧
      finalGrid landMaskW oceanMaskW [(0, 0)] [(1, 0)] 1 2 1 (fun _ _ => true)
        (fun _ _ => 0) 0 0 ≤ ((1 : Nat) : Int)) ∧
    (oceanMaskW 0 0 = true →
      ((1 : Nat) : Int) + 1 ≤ finalGrid landMaskW oceanMaskW [(0, 0)] [(1, 0)] 1 2 1
        (fun _ _ => true) (fun _ _ => 0) 0 0 ∧
      finalGrid landMaskW oceanMaskW [(0, 0)] [(1, 0)] 1 2 1 (fun _ _ => true)
        (fun _ _ => 0) 0 0 ≤ ((1 : Nat) : Int) + ((1 : Nat) : Int)) ∧
    (landMaskW 0 0 = false → oceanMaskW 0 0 = false →
      finalGrid landMaskW oceanMaskW [(0, 0)] [(1, 0)] 1 2 1 (fun _ _ => true)
        (fun _ _ => 0) 0 0 = 0) := by
  refine c2_final_label_ranges landMaskW oceanMaskW [(0, 0)] [(1, 0)] 1 2 1
    (fun _ _ => true) (fun _ _ => 0) ?_ (by decide) (by decide) 0 0
  intro y x hyx
  unfold landMaskW at hyx
  rw [decide_eq_true_eq] at hyx
  unfold oceanMaskW
  rw [decide_eq_false_iff_not]
  omega

/-- C8.  With relaxation iteration count 0 the land phase skips
relaxation, perturbation and smoothing entirely, so the final land label
grid equals the initial nearest-seed assignment with offset 1 at every
pixel; and on in-mask pixels that assignment is `1 + nearest seed
index`. -/
theorem c8_zero_relaxation_is_assignment (lm : Mask) (landSeeds : List (Int × Int))
    (h w : Nat) (sel : Int → Int → Bool) (rnd : Int → Int → Nat) (y x : Int) :
    pipelineLandGrid lm landSeeds h w 0 sel rnd y x = assign_provinces_kdtree lm landSeeds 1 y x ∧
    (lm y x = true → landSeeds ≠ [] →
      assign_provinces_kdtree lm landSeeds 1 y x = 1 + (nearestSeedIdx landSeeds (x, y) : Int)) := by
  constructor
  · unfold pipelineLandGrid
    rw [if_neg (by omega)]
  · intro hm hs
    unfold assign_provinces_kdtree
    rw [if_neg (by simpa [List.isEmpty_iff] using hs), if_pos hm]

theorem c8_witness :
    pipelineLandGrid maskAll [(0, 0)] 1 1 0 (fun _ _ => true) (fun _ _ => 0) 0 0 =
      assign_provinces_kdtree maskAll [(0, 0)] 1 0 0 ∧
    assign_provinces_kdtree maskAll [(0, 0)] 1 0 0 = 1 + (nearestSeedIdx [(0, 0)] (0, 0) : Int) :=
  ⟨(c8_zero_relaxation_is_assignment maskAll [(0, 0)] 1 1 (fun _ _ => true)
      (fun _ _ => 0) 0 0).1,
   (c8_zero_relaxation_is_assignment maskAll [(0, 0)] 1 1 (fun _ _ => true)
      (fun _ _ => 0) 0 0).2 rfl (by decide)⟩

/-! ## Centroid correction (C3) -/

lemma coordsList_mem_bounds (h w : Nat) (c : Int × Int) (hc : c ∈ coordsList h w) :
    0 ≤ c.1 ∧ c.1 < (h : Int) ∧ 0 ≤ c.2 ∧ c.2 < (w : Int) := by
  unfold coordsList at hc
  rw [List.mem_map] at hc
  obtain ⟨k, hk, rfl⟩ := hc
  rw [List.mem_range] at hk
  have hw : 0 < w := by
    rcases Nat.eq_zero_or_pos w with hw0 | hw0
    · subst hw0
      simp at hk
    · exact hw0
  have h1 : k / w < h := (Nat.div_lt_iff_lt_mul hw).2 hk
  have h2 : k % w < w := Nat.mod_lt k hw
  refine ⟨Int.ofNat_nonneg _, ?_, Int.ofNat_nonneg _, ?_⟩
  · show ((k / w : Nat) : Int) < (h : Int)
    exact_mod_cast h1
  · show ((k % w : Nat) : Int) < (w : Int)
    exact_mod_cast h2

lemma list_sum_le : ∀ (l : List Nat) (n : Nat), (∀ v ∈ l, v ≤ n) → l.sum ≤ l.length * n
  | [], _, _ => Nat.zero_le _
  | a :: t, n, hb => by
      rw [List.sum_cons, List.length_cons]
      have h1 : a ≤ n := hb a (List.mem_cons_self a t)
      have h2 := list_sum_le t n (fun v hv => hb v (List.mem_cons_of_mem a hv))
      calc a + t.sum ≤ n + t.length * n := Nat.add_le_add h1 h2
        _ = (t.length + 1) * n := by ring

lemma centroidOf_bounds (g : Grid) (h w : Nat) (id : Int)
    (hne : provPixels g h w id ≠ []) :
    (centroidOf g h w id).1 < w ∧ (centroidOf g h w id).2 < h := by
  obtain ⟨c, hc⟩ := List.exists_mem_of_ne_nil _ hne
  have hcb := coordsList_mem_bounds h w c (List.mem_filter.1 hc).1
  have hw : 0 < w := by
    rcases hcb with ⟨_, _, hc2, hc2w⟩
    omega
  have hh : 0 < h := by
    rcases hcb with ⟨hc1, hc1h, _, _⟩
    omega
  have hlen : 0 < (provPixels g h w id).length :=
    List.length_pos.2 hne
  constructor
  · have hsum : ((provPixels g h w id).map (fun c => c.2.toNat)).sum ≤
        (provPixels g h w id).length * (w - 1) := by
      have := list_sum_le ((provPixels g h w id).map (fun c => c.2.toNat)) (w - 1) ?_
      · rwa [List.length_map] at this
      · intro v hv
        rw [List.mem_map] at hv
        obtain ⟨p, hp, rfl⟩ := hv
        have := coordsList_mem_bounds h w p (List.mem_filter.1 hp).1
        omega
    have hdiv : ((provPixels g h w id).map (fun c => c.2.toNat)).sum /
        (provPixels g h w id).length ≤ (w - 1) := by
      calc ((provPixels g h w id).map (fun c => c.2.toNat)).sum /
            (provPixels g h w id).length
          ≤ (provPixels g h w id).length * (w - 1) / (provPixels g h w id).length :=
            Nat.div_le_div_right hsum
        _ = w - 1 := Nat.mul_div_cancel_left _ hlen
    show ((provPixels g h w id).map (fun c => c.2.toNat)).sum /
        (provPixels g h w id).length < w
    omega
  · have hsum : ((provPixels g h w id).map (fun c => c.1.toNat)).sum ≤
        (provPixels g h w id).length * (h - 1) := by
      have := list_sum_le ((provPixels g h w id).map (fun c => c.1.toNat)) (h - 1) ?_
      · rwa [List.length_map] at this
      · intro v hv
        rw [List.mem_map] at hv
        obtain ⟨p, hp, rfl⟩ := hv
        have := coordsList_mem_bounds h w p (List.mem_filter.1 hp).1
        omega
    have hdiv : ((provPixels g h w id).map (fun c => c.1.toNat)).sum /
        (provPixels g h w id).length ≤ (h - 1) := by
      calc ((provPixels g h w id).map (fun c => c.1.toNat)).sum /
            (provPixels g h w id).length
          ≤ (provPixels g h w id).length * (h - 1) / (provPixels g h w id).length :=
            Nat.div_le_div_right hsum
        _ = h - 1 := Nat.mul_div_cancel_left _ hlen
    show ((provPixels g h w id).map (fun c => c.1.toNat)).sum /
        (provPixels g h w id).length < h
    omega

lemma minByDist_mem (cx cy : Int) : ∀ (l : List (Int × Int)) (c0 : Int × Int),
    minByDist cx cy c0 l ∈ c0 :: l
  | [], c0 => List.mem_cons_self _ _
  | c :: t, c0 => by
      have hEq : minByDist cx cy c0 (c :: t) =
          minByDist cx cy (if distTo cx cy c < distTo cx cy c0 then c else c0) t := by
        unfold minByDist
        rw [List.foldl_cons]
      rw [hEq]
      rcases List.mem_cons.1
        (minByDist_mem cx cy t (if distTo cx cy c < distTo cx cy c0 then c else c0)) with
        hh | hh
      · by_cases hlt : distTo cx cy c < distTo cx cy c0
        · rw [if_pos hlt] at hh ⊢
          rw [hh]
          exact List.mem_cons_of_mem _ (List.mem_cons_self _ _)
        · rw [if_neg hlt] at hh ⊢
          rw [hh]
          exact List.mem_cons_self _ _
      · exact List.mem_cons_of_mem _ (List.mem_cons_of_mem _ hh)

lemma lloydSeedUpdateAux_getD (g : Grid) (m : Mask) (h w : Nat) (startId : Int) :
    ∀ (l : List (Int × Int)) (i0 j : Nat) (d : Int × Int), j < l.length →
      (lloydSeedUpdateAux g m h w startId i0 l).getD j d =
        updateOne g m h w startId (i0 + j) (l.getD j d)
  | [], _, j, _, hj => by simp at hj
  | s :: rest, i0, 0, d, _ => by
      unfold lloydSeedUpdateAux
      simp
  | s :: rest, i0, j + 1, d, hj => by
      unfold lloydSeedUpdateAux
      have hrec := lloydSeedUpdateAux_getD g m h w startId rest (i0 + 1) j d
        (by simpa using hj)
      rw [List.getD_cons_succ, List.getD_cons_succ, hrec]
      congr 1
      omega

/-- C3 (amended).  For a province that has at least one pixel of its own
label on the mask, the seed produced by the centroid-correction step of
`lloyd_relaxation` always lies on a mask pixel; and in the case where the
raw centroid does not lie on the mask (the only case in which the source
corrects it), the corrected seed moreover lies on a pixel labelled with
the province's own id.  When the centroid lies on the mask it is taken
as the new seed even if that pixel belongs to a different province. -/
theorem c3_corrected_centroid_on_mask (g : Grid) (m : Mask) (h w : Nat) (startId : Int)
    (seeds : List (Int × Int)) (i : Nat) (hi : i < seeds.length)
    (hpix : ∃ c, c ∈ coordsList h w ∧ g c.1 c.2 = startId + (i : Int) ∧ m c.1 c.2 = true) :
    m ((lloydSeedUpdate g m h w seeds startId).getD i (0, 0)).2
      ((lloydSeedUpdate g m h w seeds startId).getD i (0, 0)).1 = true ∧
    (m ((centroidOf g h w (startId + (i : Int))).2 : Int)
       ((centroidOf g h w (startId + (i : Int))).1 : Int) = false →
      g ((lloydSeedUpdate g m h w seeds startId).getD i (0, 0)).2
        ((lloydSeedUpdate g m h w seeds startId).getD i (0, 0)).1 = startId + (i : Int)) := by
  obtain ⟨c, hcl, hclab, hcm⟩ := hpix
  have hgetD : (lloydSeedUpdate g m h w seeds startId).getD i (0, 0) =
      updateOne g m h w startId i (seeds.getD i (0, 0)) := by
    unfold lloydSeedUpdate
    have := lloydSeedUpdateAux_getD g m h w startId seeds 0 i (0, 0) hi
    simpa using this
  rw [hgetD]
  have hcps : c ∈ provPixels g h w (startId + (i : Int)) := by
    unfold provPixels
    rw [List.mem_filter]
    exact ⟨hcl, by rw [beq_iff_eq]; exact hclab⟩
  have hpsne : provPixels g h w (startId + (i : Int)) ≠ [] := List.ne_nil_of_mem hcps
  have hlenpos : 0 < (provPixels g h w (startId + (i : Int))).length := List.length_pos.2 hpsne
  have hcb := centroidOf_bounds g h w (startId + (i : Int)) hpsne
  unfold updateOne
  rw [if_pos hlenpos, if_pos ⟨hcb.2, hcb.1⟩]
  by_cases hmc : m ((centroidOf g h w (startId + (i : Int))).2 : Int)
      ((centroidOf g h w (startId + (i : Int))).1 : Int) = true
  · rw [if_pos hmc]
    refine ⟨hmc, ?_⟩
    intro hmf
    rw [hmf] at hmc
    exact absurd hmc (by simp)
  · rw [if_neg hmc]
    have hcand : c ∈ (coordsList h w).filter
        (fun p => g p.1 p.2 == startId + (i : Int) && m p.1 p.2) := by
      rw [List.mem_filter]
      refine ⟨hcl, ?_⟩
      rw [Bool.and_eq_true, beq_iff_eq]
      exact ⟨hclab, hcm⟩
    rcases hfl : (coordsList h w).filter
        (fun p => g p.1 p.2 == startId + (i : Int) && m p.1 p.2) with _ | ⟨c0, rest⟩
    · rw [hfl] at hcand
      exact absurd hcand (List.not_mem_nil c)
    · have hnv : nearestValidPixel g m h w (startId + (i : Int))
          ((centroidOf g h w (startId + (i : Int))).1 : Int)
          ((centroidOf g h w (startId + (i : Int))).2 : Int) =
          some (minByDist ((centroidOf g h w (startId + (i : Int))).1 : Int)
            ((centroidOf g h w (startId + (i : Int))).2 : Int) c0 rest) := by
        unfold nearestValidPixel
        rw [hfl]
      rw [hnv]
      have hqfil : minByDist ((centroidOf g h w (startId + (i : Int))).1 : Int)
          ((centroidOf g h w (startId + (i : Int))).2 : Int) c0 rest ∈
          (coordsList h w).filter
            (fun p => g p.1 p.2 == startId + (i : Int) && m p.1 p.2) := by
        rw [hfl]
        exact minByDist_mem _ _ rest c0
      have hq := (List.mem_filter.1 hqfil).2
      rw [Bool.and_eq_true, beq_iff_eq] at hq
      exact ⟨hq.2, fun _ => hq.1⟩

/-- Concrete 1×5 grid for C3: province 1 owns the two end pixels of the
row, province 2 the middle three. -/
def gridC3 : Grid := fun y x =>
  if y = 0 ∧ (x = 0 ∨ x = 4) then 1 else if y = 0 then 2 else 0

/-- C3 counterexample.  On `gridC3` with a full mask, province 1's pixel
centroid is `(2, 0)`, which lies on the mask but inside province 2; the
correction step accepts it as the new seed, so the seed does not lie on a
pixel labelled with province 1's own id, contradicting the claim. -/
theorem c3_counterexample :
    (lloydSeedUpdate gridC3 maskAll 1 5 [(0, 0), (2, 0)] 1).getD 0 (0, 0) = (2, 0) ∧
    maskAll 0 2 = true ∧
    gridC3 0 2 = 2 ∧
    (2 : Int) ≠ 1 := by
  refine ⟨by decide, rfl, by decide, by decide⟩

/-- Mask with a hole at `(0, 2)` for the C3 witness. -/
def maskHole : Mask := fun y x => decide (¬(y = 0 ∧ x = 2))

theorem c3_witness :
    maskHole ((lloydSeedUpdate gridC3 maskHole 1 5 [(0, 0), (2, 0)] 1).getD 0 (0, 0)).2
      ((lloydSeedUpdate gridC3 maskHole 1 5 [(0, 0), (2, 0)] 1).getD 0 (0, 0)).1 = true ∧
    (maskHole ((centroidOf gridC3 1 5 (1 + ((0 : Nat) : Int))).2 : Int)
       ((centroidOf gridC3 1 5 (1 + ((0 : Nat) : Int))).1 : Int) = false →
      gridC3 ((lloydSeedUpdate gridC3 maskHole 1 5 [(0, 0), (2, 0)] 1).getD 0 (0, 0)).2
        ((lloydSeedUpdate gridC3 maskHole 1 5 [(0, 0), (2, 0)] 1).getD 0 (0, 0)).1 =
        1 + ((0 : Nat) : Int)) :=
  c3_corrected_centroid_on_mask gridC3 maskHole 1 5 1 [(0, 0), (2, 0)] 0 (by decide)
    ⟨(0, 0), by decide, by decide, by decide⟩

/-! ## Mask building and the top-level run (`create_masks_vectorized`,
`generate_provinces`) -/

/-- Reference land colour of the basemap. -/
def LAND_COLOR : Int × Int × Int := (255, 255, 255)

/-- Reference ocean colour of the basemap. -/
def OCEAN_COLOR : Int × Int × Int := (153, 204, 255)

/-- Reference ocean-border colour of the basemap. -/
def OCEAN_BORDER_COLOR : Int × Int × Int := (0, 0, 0)

/-- Per-channel colour tolerance. -/
def COLOR_TOLERANCE : Int := 5

/-- Per-channel tolerance match of `create_masks_vectorized`. -/
def matchesColor (c ref : Int × Int × Int) : Bool :=
  decide (|c.1 - ref.1| ≤ COLOR_TOLERANCE) &&
  decide (|c.2.1 - ref.2.1| ≤ COLOR_TOLERANCE) &&
  decide (|c.2.2 - ref.2.2| ≤ COLOR_TOLERANCE)

/-- The land mask of a basemap. -/
def landMaskOf (bm : Int → Int → Int × Int × Int) : Mask := fun y x =>
  matchesColor (bm y x) LAND_COLOR

/-- The ocean mask of a basemap (ocean colour or ocean-border colour). -/
def oceanMaskOf (bm : Int → Int → Int × Int × Int) : Mask := fun y x =>
  matchesColor (bm y x) OCEAN_COLOR || matchesColor (bm y x) OCEAN_BORDER_COLOR

/-- Number of true pixels of a mask, as `np.sum(mask)`. -/
def countMask (m : Mask) (h w : Nat) : Nat :=
  ((coordsList h w).filter (fun c => m c.1 c.2)).length

/-- The land and ocean masks are disjoint for every basemap: the land
reference colour is more than two tolerances away from both ocean
reference colours in the red channel. -/
lemma masks_disjoint (bm : Int → Int → Int × Int × Int) (y x : Int)
    (hl : landMaskOf bm y x = true) : oceanMaskOf bm y x = false := by
  unfold landMaskOf matchesColor LAND_COLOR COLOR_TOLERANCE at hl
  simp only [Bool.and_eq_true, decide_eq_true_eq, abs_le] at hl
  obtain ⟨⟨hr, _⟩, _⟩ := hl
  unfold oceanMaskOf matchesColor OCEAN_COLOR OCEAN_BORDER_COLOR COLOR_TOLERANCE
  rw [Bool.or_eq_false_iff]
  constructor
  · refine Bool.eq_false_iff.2 (fun hm => ?_)
    simp only [Bool.and_eq_true, decide_eq_true_eq, abs_le] at hm
    obtain ⟨⟨hm1, _⟩, _⟩ := hm
    omega
  · refine Bool.eq_false_iff.2 (fun hm => ?_)
    simp only [Bool.and_eq_true, decide_eq_true_eq, abs_le] at hm
    obtain ⟨⟨hm1, _⟩, _⟩ := hm
    omega

/-- The failure mode of the run. -/
inductive GenError
  | noValidTerrain

/-- Observable trace of one `generate_provinces` run: the returned value
and whether the label grid was allocated and the two output files
written. -/
structure RunTrace where
  result : Except GenError Nat
  gridAllocated : Bool
  wroteRaster : Bool
  wroteDefinition : Bool

/-- Shallow embedding of the control flow of `generate_provinces`: build
the masks, count classified pixels, and abort — before the label grid is
allocated and before any output is produced — when the count is zero;
otherwise sample seeds (the samplers stand for the seeded numpy draws),
run the full pipeline, and emit both outputs, returning the number of
distinct positive labels. -/
def generate_provinces (bm : Int → Int → Int × Int × Int) (h w : Nat)
    (landSampler oceanSampler : Option Int → List (Int × Int)) (seed : Option Int)
    (iters : Nat) (sel : Int → Int → Bool) (rnd : Int → Int → Nat) : RunTrace :=
  let lm := landMaskOf bm
  let om := oceanMaskOf bm
  let landPixels := countMask lm h w
  let oceanPixels := countMask om h w
  if landPixels + oceanPixels = 0 then
    { result := Except.error GenError.noValidTerrain, gridAllocated := false,
      wroteRaster := false, wroteDefinition := false }
  else
    let landSeeds := landSampler seed
    let oceanSeeds := oceanSampler (oceanSeedArg seed)
    let g := finalGrid lm om landSeeds oceanSeeds h w iters sel rnd
    let ids := occList (((coordsList h w).map (fun c => g c.1 c.2)).filter
      (fun v => decide (0 < v)))
    { result := Except.ok ids.length, gridAllocated := true,
      wroteRaster := true, wroteDefinition := true }

/-- C9.  When the basemap classifies to zero land plus ocean pixels, the
run fails with `NoValidTerrain` before the label grid is allocated, and
neither the raster nor the definition table is written. -/
theorem c9_no_valid_terrain (bm : Int → Int → Int × Int × Int) (h w : Nat)
    (landSampler oceanSampler : Option Int → List (Int × Int)) (seed : Option Int)
    (iters : Nat) (sel : Int → Int → Bool) (rnd : Int → Int → Nat)
    (hzero : countMask (landMaskOf bm) h w + countMask (oceanMaskOf bm) h w = 0) :
    (generate_provinces bm h w landSampler oceanSampler seed iters sel rnd).result =
      Except.error GenError.noValidTerrain ∧
    (generate_provinces bm h w landSampler oceanSampler seed iters sel rnd).gridAllocated
      = false ∧
    (generate_provinces bm h w landSampler oceanSampler seed iters sel rnd).wroteRaster
      = false ∧
    (generate_provinces bm h w landSampler oceanSampler seed iters sel rnd).wroteDefinition
      = false := by
  unfold generate_provinces
  rw [if_pos hzero]
  exact ⟨rfl, rfl, rfl, rfl⟩

/-- All-red basemap: matches neither the land nor the ocean reference
colours. -/
def basemapRed : Int → Int → Int × Int × Int := fun _ _ => (200, 0, 0)

theorem c9_witness :
    (generate_provinces basemapRed 1 1 (fun _ => []) (fun _ => []) (some 7) 5
      (fun _ _ => true) (fun _ _ => 0)).result = Except.error GenError.noValidTerrain ∧
    (generate_provinces basemapRed 1 1 (fun _ => []) (fun _ => []) (some 7) 5
      (fun _ _ => true) (fun _ _ => 0)).gridAllocated = false ∧
    (generate_provinces basemapRed 1 1 (fun _ => []) (fun _ => []) (some 7) 5
      (fun _ _ => true) (fun _ _ => 0)).wroteRaster = false ∧
    (generate_provinces basemapRed 1 1 (fun _ => []) (fun _ => []) (some 7) 5
      (fun _ _ => true) (fun _ _ => 0)).wroteDefinition = false :=
  c9_no_valid_terrain basemapRed 1 1 (fun _ => []) (fun _ => []) (some 7) 5
    (fun _ _ => true) (fun _ _ => 0) (by decide)
